import Mathlib

/-!
Verification of the CornerPlot repository (`src/corner_plot/corner_plot.py`).

The numerical core (`confidence_2d`: 2-D histogram binning, descending sort of
bin occupancies, cumulative-sum thresholding) and the plotting bookkeeping that
the specification talks about (step polylines for 1-D histograms, truth-marker
axis-bound expansion, the tick formatter, the dimension-mismatch warnings of
`corner_plot`) are embedded shallowly below.  Real-valued sample data and the
float arithmetic of numpy are modelled by exact arithmetic in a linear ordered
field (instantiated at `ℚ` for concrete evaluations and at `ℝ` for the default
interval list, which involves `exp`).  Integer bin counts are `ℕ`; lists stand
for 1-D numpy arrays, and the 2-D histogram grid is its row-major flattening,
exactly as `H.flatten()` produces it in the source.
-/

namespace CornerPlot

variable {α : Type} [LinearOrderedField α]

/-- Embedding of `np.min` on a (nonempty) array; numpy raises on an empty
array, which never happens on the paths modelled here, so the empty case is
given the junk value 0. -/
def listMin : List α → α
  | [] => 0
  | a :: t => t.foldl min a

/-- Embedding of `np.max` on a (nonempty) array, junk value 0 on empty. -/
def listMax : List α → α
  | [] => 0
  | a :: t => t.foldl max a

/-- Embedding of numpy's outer-edge computation for an automatic histogram
range (`numpy._get_outer_edges`): the range is `(min, max)` of the data,
except that an empty array gets the default range `(0, 1)` and a degenerate
range with `min = max` is silently widened by ±0.5 in each direction. -/
def outerEdges : List α → α × α
  | [] => (0, 1)
  | a :: t =>
    let lo := t.foldl min a
    let hi := t.foldl max a
    if lo = hi then (lo - 1 / 2, hi + 1 / 2) else (lo, hi)

/-- The bin index a sample `x` falls into for `n` equal-width bins on
`[lo, hi]`: numpy assigns `x` to bin `i` when `edges[i] ≤ x < edges[i+1]`,
with the last bin closed on the right.  For `lo ≤ x ≤ hi`, `lo < hi`, `1 ≤ n`
and exact arithmetic this equals `min ⌊(x - lo)·n/(hi - lo)⌋ (n-1)`. -/
def binIdx [FloorRing α] (lo hi : α) (n : ℕ) (x : α) : ℕ :=
  min (⌊(x - lo) * n / (hi - lo)⌋.toNat) (n - 1)

/-- Embedding of `np.histogram2d(ysamples, xsamples, bins=nbins)` followed by
`H.flatten()`: the row-major list of bin occupancy counts.  Pair `i` of the
data is `(ysamples[i], xsamples[i])`; row index comes from the y-coordinate,
so the flat position of a pair is `iy * n + ix`. -/
def gridCounts [FloorRing α] (xs ys : List α) (n : ℕ) : List ℕ :=
  let ye := outerEdges ys
  let xe := outerEdges xs
  let pts := ys.zip xs
  (List.range (n * n)).map fun b =>
    pts.countP fun q => decide (binIdx ye.1 ye.2 n q.1 * n + binIdx xe.1 xe.2 n q.2 = b)

/-- The flattened occupancy grid with the counts cast into the numeric field,
as `np.histogram2d` returns a float array. -/
def gridVals [FloorRing α] (xs ys : List α) (n : ℕ) : List α :=
  (gridCounts xs ys n).map (Nat.cast : ℕ → α)

/-- Embedding of the bin-edge array `np.linspace lo hi (n+1)`:
`n + 1` equally spaced edges from `lo` to `hi`. -/
def edgesList (lo hi : α) (n : ℕ) : List α :=
  (List.range (n + 1)).map fun (i : ℕ) => lo + (Nat.cast i : α) * (hi - lo) / n

/-- Embedding of `np.sort(H.flatten())[::-1]`: sort ascending, then reverse,
giving the occupancies in descending order. -/
def descSort (l : List α) : List α :=
  (List.insertionSort (fun a b => a ≤ b) l).reverse

/-- Embedding of `np.cumsum`: the list of partial sums. -/
def cumsum : List α → List α
  | [] => []
  | a :: t => a :: (cumsum t).map (fun s => a + s)

/-- Embedding of `cdf = np.cumsum(h)/np.cumsum(h)[-1]`: partial sums divided
by the final partial sum (the total mass). -/
def cdfOf (h : List α) : List α :=
  (cumsum h).map fun s => s / (cumsum h).getLastD 0

/-- Embedding of `np.diff`: the list of consecutive differences. -/
def diffList : List α → List α
  | a :: b :: t => (b - a) :: diffList (b :: t)
  | _ => []

/-- Embedding of `h[cdf <= li][-1]`: the boolean mask `cdf <= li` selects the
positions of `h` whose running cumulative fraction does not exceed `li`, and
`[-1]` takes the last selected entry.  Python raises `IndexError` on an empty
selection; that is the `none` case. -/
def select (h cdf : List α) (p : α) : Option α :=
  (((h.zip cdf).filter fun q => decide (q.2 ≤ p)).getLast?).map Prod.fst

/-- A list comprehension whose body may raise: the whole comprehension
produces a value only when every element does. -/
def traverseOpt {β γ : Type} (f : β → Option γ) : List β → Option (List γ)
  | [] => some []
  | b :: t =>
    match f b, traverseOpt f t with
    | some c, some cs => some (c :: cs)
    | _, _ => none

/-- Embedding of the level computation inside the `try` block of
`confidence_2d` (source lines 28-33):
`h = np.sort(H.flatten())[::-1]`, `cdf = np.cumsum(h)/np.cumsum(h)[-1]`,
`v = np.array([h[cdf<=li][-1] for li in intervals[1:]])[::-1]`,
`v = np.append(v, h[0])`, then `if not np.all(np.diff(v)>0.): raise`.
`none` is any raised exception (empty selection, empty `h`, or the
non-monotonic level check), which the caller turns into the scatter
fallback. -/
def levelsFromGrid (H : List α) (intervals : List α) : Option (List α) :=
  match descSort H, traverseOpt (fun p => select (descSort H) (cdfOf (descSort H)) p) intervals.tail with
  | h0 :: _, some vs =>
    if (diffList (vs.reverse ++ [h0])).all (fun d => decide (0 < d)) then
      some (vs.reverse ++ [h0])
    else none
  | _, _ => none

/-- Outcome of a `confidence_2d` call: contour levels drawn, the scatter
fallback (with the x/y axis bounds it sets), or an uncaught exception
escaping to the caller. -/
inductive CRes (α : Type) : Type where
  | contour : List α → CRes α
  | scatterFall : α × α → α × α → CRes α
  | err : CRes α
deriving DecidableEq

/-- Embedding of the control flow of `confidence_2d` (source lines 16-53),
projected onto its computational outcome.  `axGiven` records whether the
caller passed an axis object; when it did not, both fallback branches run
`fig,ax = plt.subplots` — the function object is not called, so tuple
unpacking raises `TypeError`, which escapes (`CRes.err`).  The scatter
fallback sets `xlim`/`ylim` to `(np.min(edges), np.max(edges))`. -/
def confidence_2d [FloorRing α] (xs ys : List α) (nbins : ℕ) (intervals : List α)
    (scatter axGiven : Bool) : CRes α :=
  let ye := outerEdges ys
  let xe := outerEdges xs
  let xedges := edgesList xe.1 xe.2 nbins
  let yedges := edgesList ye.1 ye.2 nbins
  let xlim := (listMin xedges, listMax xedges)
  let ylim := (listMin yedges, listMax yedges)
  if scatter = false then
    match levelsFromGrid (gridVals xs ys nbins) intervals with
    | some v => CRes.contour v
    | none => if axGiven then CRes.scatterFall xlim ylim else CRes.err
  else
    if axGiven then CRes.scatterFall xlim ylim else CRes.err

/-- The default interval list of `confidence_2d`
(`1.0 - np.exp(-0.5 * np.array([0., 1., 2.]) ** 2)`). -/
noncomputable def defaultIntervals : List ℝ :=
  [0, 1, 2].map fun k => 1 - Real.exp (-(1 / 2) * k ^ 2)

/-- `confidence_2d` including its `if intervals is None` default handling
(source lines 21-22), over the reals since the default levels are
irrational. -/
noncomputable def confidence_2dFull (xs ys : List ℝ) (nbins : ℕ)
    (intervals : Option (List ℝ)) (scatter axGiven : Bool) : CRes ℝ :=
  confidence_2d xs ys nbins (intervals.getD defaultIntervals) scatter axGiven

/-- Embedding of the step-polyline construction (source lines 228-237 and
303-312): arrays of length `2*nbins + 2`, interior entries
`xplot[i] = walls[int((i-1)/2)]`, `yplot[i] = vals[int((i-2)/2)]` for
`1 ≤ i ≤ 2*nbins`, then `xplot[0] = walls[0]`, `xplot[-1] = walls[-1]`,
`yplot[0] = yplot[1]`, `yplot[-1] = yplot[-2]`.  Python's `int()` truncates
toward zero, so `int((1-2)/2) = 0`; truncated `ℕ` subtraction gives the same
value `(1-2)/2 = 0`, and for `i ≥ 2` both agree with floor division. -/
def stepPolyline (vals walls : List α) (nbins : ℕ) : List α × List α :=
  let xin := (List.range' 1 (2 * nbins)).map fun i => walls.getD ((i - 1) / 2) 0
  let yin := (List.range' 1 (2 * nbins)).map fun i => vals.getD ((i - 2) / 2) 0
  (walls.getD 0 0 :: (xin ++ [walls.getLastD 0]),
   yin.headD 0 :: (yin ++ [yin.getLastD 0]))

/-- Embedding of the truth-marker axis-bound expansion used on every panel
(source lines 261-266, 282-293 and 322-327): if the truth value `t` lies
below the lower limit the lower limit moves to `t` minus 5% of the range,
if it lies above the upper limit the upper limit moves to `t` plus 5% of the
range, and otherwise the limits are unchanged. -/
def expandLimits (lo hi t : α) : α × α :=
  if t < lo then (lo - (lo - t) - 5 / 100 * (hi - lo), hi)
  else if hi < t then (lo, hi + (t - hi) + 5 / 100 * (hi - lo))
  else (lo, hi)

/-- The two stderr warnings `corner_plot` can emit (source lines 163-167). -/
inductive Warn : Type where
  | labelMismatch : Warn
  | truthsMismatch : Warn
deriving DecidableEq

/-- Embedding of `corner_plot`'s dimension-mismatch handling, projected onto
what the warnings and the label/truths list accesses depend on: the number of
traces, the number of axis labels supplied (`none` when `axis_labels is None`,
in which case the source substitutes `['']*len(traces)`), and the number of
truth values supplied.  `corner_plot_warnings` is the list of warnings printed
(lines 163-167).  `corner_plot_completes` is whether the render completes: it
is `false` exactly when one of the subsequent unguarded list accesses raises
`IndexError` — `axis_labels[-1]` (line 254), `truths[n_traces-1]`
(lines 261-267), `truths[x_var]`/`truths[y_var]` for every existing 2-D panel
`x_var < y_var ≤ n_traces-1` (lines 282-296; the surrounding `except KeyError`
does not catch `IndexError`), `truths[x_var]` for `x_var < n_traces-1`
(lines 322-328), and `axis_labels[x_var]` for `x_var < n_traces-1` plus
`axis_labels[y_var]` for `1 ≤ y_var < n_traces` (lines 331-340). -/
def corner_plot_warnings (nTraces : ℕ) (nLabels : Option ℕ) (nTruths : Option ℕ) :
    List Warn :=
  (if nTraces ≠ nLabels.getD nTraces then [Warn.labelMismatch] else []) ++
    nTruths.elim [] fun nt => if nt ≠ nTraces then [Warn.truthsMismatch] else []

/-- Whether every label/truths index access described above is in bounds, so
the render runs to completion rather than aborting on `IndexError`. -/
def corner_plot_completes (nTraces : ℕ) (nLabels : Option ℕ) (nTruths : Option ℕ) :
    Bool :=
  (decide (1 ≤ nLabels.getD nTraces) &&
    ((List.range (nTraces - 1)).all fun i => decide (i < nLabels.getD nTraces)) &&
    ((List.range' 1 (nTraces - 1)).all fun i => decide (i < nLabels.getD nTraces))) &&
  nTruths.elim true fun nt => decide (nTraces - 1 < nt) &&
    ((List.range nTraces).all fun y =>
      (List.range y).all fun x => decide (x < nt) && decide (y < nt))

/-- Embedding of Python's `s.replace("0", "", 1)` for a one-character
pattern: drop the first occurrence of the character `'0'`. -/
def pyReplaceFirstZero : List Char → List Char
  | [] => []
  | c :: t => if c = '0' then t else c :: pyReplaceFirstZero t

/-- The string `'${:g}$'.format(x)`, with the `{:g}` number formatting left
abstract as a function `g` from the value to its character list. -/
def fmtWrap (g : α → List Char) (x : α) : List Char :=
  '$' :: (g x ++ ['$'])

/-- Embedding of `my_formatter` (source lines 77-85): values with
`0 < |x| < 1` have the first `'0'` of their formatted string removed, all
other values are formatted unchanged. -/
def my_formatter (g : α → List Char) (x : α) : List Char :=
  if 0 < |x| ∧ |x| < 1 then pyReplaceFirstZero (fmtWrap g x) else fmtWrap g x

/-- Modelled from the spec claim wording only (not from the source): "the
largest bin-occupancy value `h` such that the cumulative mass up to and
including bins of occupancy ≥ `h` does not exceed `p`", the mass being
normalized by the total.  Used to compare the claimed selection rule with the
one the source implements. -/
def claimThreshold (H : List α) (p : α) : Option α :=
  match H.filter (fun t => decide ((H.filter fun x => decide (t ≤ x)).sum / H.sum ≤ p)) with
  | [] => none
  | a :: t => some (t.foldl max a)

/-- The spec-worded "first '0' character removed": everything before the
first `'0'`, then everything after it. -/
def removeFirstZeroChar (s : List Char) : List Char :=
  s.takeWhile (fun c => decide (c ≠ '0')) ++ (s.dropWhile (fun c => decide (c ≠ '0'))).tail

/-! Concrete sample data used in closed evaluations.  `exC1x/exC1y` put five
pairs in bin (0,0), three in (0,1), one in (1,0) and one in (1,1) of a 2×2
histogram; `exC2x/exC2y` give occupancies 4, 2, 1, 1; `threeOnes`/`threeTwos`
and `tenOnes` are zero-variance samples. -/

def exC1x : List ℚ := [0, 0, 0, 0, 0, 1, 1, 1, 0, 1]

def exC1y : List ℚ := [0, 0, 0, 0, 0, 0, 0, 0, 1, 1]

def exC2x : List ℚ := [0, 0, 0, 0, 1, 1, 0, 1]

def exC2y : List ℚ := [0, 0, 0, 0, 0, 0, 1, 1]

def threeOnes : List ℚ := [1, 1, 1]

def threeTwos : List ℚ := [2, 2, 2]

def tenOnes : List ℚ := [1, 1, 1, 1, 1, 1, 1, 1, 1, 1]

/-! Helper lemmas. -/

theorem getD_length_sub_one {β : Type} (l : List β) (d : β) (h : l ≠ []) :
    l.getD (l.length - 1) d = l.getLastD d := by
  induction l with
  | nil => exact absurd rfl h
  | cons a t ih =>
    cases t with
    | nil => rfl
    | cons b t' =>
      have h2 : (a :: b :: t').length - 1 = (b :: t').length - 1 + 1 := by
        simp [List.length_cons]
      rw [h2]
      simpa [List.getD_cons_succ, List.getLastD_cons] using ih (by simp)

theorem pyReplaceFirstZero_eq_remove (s : List Char) :
    pyReplaceFirstZero s = removeFirstZeroChar s := by
  induction s with
  | nil => rfl
  | cons c t ih =>
    by_cases hc : c = '0'
    · subst hc
      simp [pyReplaceFirstZero, removeFirstZeroChar, List.takeWhile, List.dropWhile]
    · simp [pyReplaceFirstZero, removeFirstZeroChar, List.takeWhile, List.dropWhile, hc] at ih ⊢
      exact ih

theorem traverseOpt_length {β γ : Type} (f : β → Option γ) :
    ∀ {l : List β} {out : List γ}, traverseOpt f l = some out → out.length = l.length := by
  intro l
  induction l with
  | nil =>
    intro out h
    simp [traverseOpt] at h
    simp [← h]
  | cons b t ih =>
    intro out h
    rw [traverseOpt] at h
    rcases hfb : f b with _ | c <;> rw [hfb] at h
    · simp at h
    · rcases htr : traverseOpt f t with _ | cs <;> rw [htr] at h
      · simp at h
      · simp only [Option.some.injEq] at h
        rw [← h]
        simp [ih htr]

theorem diffList_all_pos_iff : ∀ v : List ℚ,
    (((diffList v).all fun d => decide (0 < d)) = true) ↔ List.Chain' (fun a b => a < b) v
  | [] => by simp [diffList]
  | [a] => by simp [diffList]
  | a :: b :: t => by
    rw [show diffList (a :: b :: t) = (b - a) :: diffList (b :: t) from rfl,
      List.all_cons, Bool.and_eq_true, List.chain'_cons, diffList_all_pos_iff (b :: t)]
    simp [sub_pos]

theorem levelsFromGrid_some {H ints v : List ℚ}
    (h : levelsFromGrid H ints = some v) :
    ∃ h0 hs vs, descSort H = h0 :: hs ∧
      traverseOpt (fun p => select (descSort H) (cdfOf (descSort H)) p) ints.tail = some vs ∧
      v = vs.reverse ++ [h0] ∧ ((diffList v).all fun d => decide (0 < d)) = true := by
  unfold levelsFromGrid at h
  rcases hds : descSort H with _ | ⟨h0, hs⟩
  · rw [hds] at h
    simp at h
  · rw [hds] at h
    rcases htr : traverseOpt (fun p => select (h0 :: hs) (cdfOf (h0 :: hs)) p) ints.tail with _ | vs
    · rw [htr] at h
      simp at h
    · rw [htr] at h
      change (if ((diffList (vs.reverse ++ [h0])).all fun d => decide (0 < d)) = true then
        some (vs.reverse ++ [h0]) else none) = some v at h
      by_cases hall : ((diffList (vs.reverse ++ [h0])).all fun d => decide (0 < d)) = true
      · rw [if_pos hall] at h
        simp only [Option.some.injEq] at h
        subst h
        exact ⟨h0, hs, vs, rfl, rfl, rfl, hall⟩
      · rw [if_neg hall] at h
        simp at h

theorem confidence_2d_contour {xs ys : List ℚ} {n : ℕ} {ints : List ℚ} {ax : Bool} {v : List ℚ}
    (h : confidence_2d xs ys n ints false ax = CRes.contour v) :
    levelsFromGrid (gridVals xs ys n) ints = some v := by
  unfold confidence_2d at h
  rw [if_pos rfl] at h
  rcases hlv : levelsFromGrid (gridVals xs ys n) ints with _ | v'
  · rw [hlv] at h
    cases ax <;> simp at h
  · rw [hlv] at h
    simp only [CRes.contour.injEq] at h
    rw [h]

/-! Claim theorems. -/

/-- Claim C7: for a histogram of `bins` bins with `bins+1` edges the step
polyline has x- and y-sequences of exact length `2*bins+2`, its first and
last x values equal the first and last bin edges, and its first and last
y values equal their nearest interior neighbours (`y[0] = y[1]`,
`y[-1] = y[-2]`), giving flat end-caps. -/
theorem c7_step_polyline (vals walls : List ℚ) (nbins : ℕ)
    (hn : 1 ≤ nbins) (hv : vals.length = nbins) (hw : walls.length = nbins + 1) :
    (stepPolyline vals walls nbins).1.length = 2 * nbins + 2 ∧
    (stepPolyline vals walls nbins).2.length = 2 * nbins + 2 ∧
    (stepPolyline vals walls nbins).1.headD 0 = walls.headD 0 ∧
    (stepPolyline vals walls nbins).1.getLastD 0 = walls.getLastD 0 ∧
    (stepPolyline vals walls nbins).2.getD 0 0 = (stepPolyline vals walls nbins).2.getD 1 0 ∧
    (stepPolyline vals walls nbins).2.getD (2 * nbins + 1) 0
      = (stepPolyline vals walls nbins).2.getD (2 * nbins) 0 := by
  obtain ⟨w, wt, rfl⟩ : ∃ w wt, walls = w :: wt := by
    cases walls with
    | nil => simp at hw
    | cons w wt => exact ⟨w, wt, rfl⟩
  have hylen : ((List.range' 1 (2 * nbins)).map
      (fun i => vals.getD ((i - 2) / 2) (0 : ℚ))).length = 2 * nbins := by
    simp
  obtain ⟨y1, yt, hy⟩ : ∃ y1 yt, (List.range' 1 (2 * nbins)).map
      (fun i => vals.getD ((i - 2) / 2) (0 : ℚ)) = y1 :: yt := by
    cases hyc : (List.range' 1 (2 * nbins)).map (fun i => vals.getD ((i - 2) / 2) (0 : ℚ)) with
    | nil => rw [hyc] at hylen; simp at hylen; omega
    | cons y1 yt => exact ⟨y1, yt, rfl⟩
  have hytlen : yt.length = 2 * nbins - 1 := by
    rw [hy] at hylen
    simp at hylen
    omega
  refine ⟨?_, ?_, ?_, ?_, ?_, ?_⟩
  · show ((w :: wt).getD 0 0 ::
      ((List.range' 1 (2 * nbins)).map (fun i => (w :: wt).getD ((i - 1) / 2) 0)
        ++ [(w :: wt).getLastD 0])).length = 2 * nbins + 2
    simp
  · show (((List.range' 1 (2 * nbins)).map (fun i => vals.getD ((i - 2) / 2) (0 : ℚ))).headD 0 ::
      ((List.range' 1 (2 * nbins)).map (fun i => vals.getD ((i - 2) / 2) (0 : ℚ))
        ++ [((List.range' 1 (2 * nbins)).map (fun i => vals.getD ((i - 2) / 2) (0 : ℚ))).getLastD 0])).length
      = 2 * nbins + 2
    simp
  · rfl
  · show ((w :: wt).getD 0 0 ::
      ((List.range' 1 (2 * nbins)).map (fun i => (w :: wt).getD ((i - 1) / 2) 0)
        ++ [(w :: wt).getLastD 0])).getLastD 0 = (w :: wt).getLastD 0
    rw [← List.cons_append, List.getLastD_concat]
  · show (((List.range' 1 (2 * nbins)).map (fun i => vals.getD ((i - 2) / 2) (0 : ℚ))).headD 0 ::
      ((List.range' 1 (2 * nbins)).map (fun i => vals.getD ((i - 2) / 2) (0 : ℚ))
        ++ [((List.range' 1 (2 * nbins)).map (fun i => vals.getD ((i - 2) / 2) (0 : ℚ))).getLastD 0])).getD 0 0
      = (((List.range' 1 (2 * nbins)).map (fun i => vals.getD ((i - 2) / 2) (0 : ℚ))).headD 0 ::
      ((List.range' 1 (2 * nbins)).map (fun i => vals.getD ((i - 2) / 2) (0 : ℚ))
        ++ [((List.range' 1 (2 * nbins)).map (fun i => vals.getD ((i - 2) / 2) (0 : ℚ))).getLastD 0])).getD 1 0
    rw [hy]
    simp [List.getD_cons_succ, List.getD_cons_zero]
  · show (((List.range' 1 (2 * nbins)).map (fun i => vals.getD ((i - 2) / 2) (0 : ℚ))).headD 0 ::
      ((List.range' 1 (2 * nbins)).map (fun i => vals.getD ((i - 2) / 2) (0 : ℚ))
        ++ [((List.range' 1 (2 * nbins)).map (fun i => vals.getD ((i - 2) / 2) (0 : ℚ))).getLastD 0])).getD (2 * nbins + 1) 0
      = (((List.range' 1 (2 * nbins)).map (fun i => vals.getD ((i - 2) / 2) (0 : ℚ))).headD 0 ::
      ((List.range' 1 (2 * nbins)).map (fun i => vals.getD ((i - 2) / 2) (0 : ℚ))
        ++ [((List.range' 1 (2 * nbins)).map (fun i => vals.getD ((i - 2) / 2) (0 : ℚ))).getLastD 0])).getD (2 * nbins) 0
    rw [hy]
    rw [List.getD_cons_succ]
    have h2n : 2 * nbins = (2 * nbins - 1) + 1 := by omega
    rw [h2n, List.getD_cons_succ]
    have hLlen : ((y1 :: yt) ++ [(y1 :: yt).getLastD 0]).length - 1 = 2 * nbins := by
      rw [hy] at hylen
      simp at hylen ⊢
      omega
    have h3 := getD_length_sub_one ((y1 :: yt) ++ [(y1 :: yt).getLastD 0]) (0 : ℚ) (by simp)
    rw [hLlen] at h3
    rw [show (2 * nbins - 1) + 1 = 2 * nbins from (h2n).symm, h3, List.getLastD_concat]
    have h4 : 2 * nbins - 1 < (y1 :: yt).length := by
      rw [hy] at hylen
      omega
    rw [List.getD_append _ _ _ _ h4]
    have h5 : (y1 :: yt).length - 1 = 2 * nbins - 1 := by
      rw [hy] at hylen
      omega
    rw [← h5, getD_length_sub_one (y1 :: yt) (0 : ℚ) (by simp)]

/-- Witness for C7 at `vals = [3]`, `walls = [0, 1]`, `nbins = 1`. -/
theorem c7_step_polyline_witness :
    (stepPolyline (α := ℚ) [3] [0, 1] 1).1.length = 2 * 1 + 2 ∧
    (stepPolyline (α := ℚ) [3] [0, 1] 1).2.length = 2 * 1 + 2 ∧
    (stepPolyline (α := ℚ) [3] [0, 1] 1).1.headD 0 = ([0, 1] : List ℚ).headD 0 ∧
    (stepPolyline (α := ℚ) [3] [0, 1] 1).1.getLastD 0 = ([0, 1] : List ℚ).getLastD 0 ∧
    (stepPolyline (α := ℚ) [3] [0, 1] 1).2.getD 0 0 = (stepPolyline (α := ℚ) [3] [0, 1] 1).2.getD 1 0 ∧
    (stepPolyline (α := ℚ) [3] [0, 1] 1).2.getD (2 * 1 + 1) 0
      = (stepPolyline (α := ℚ) [3] [0, 1] 1).2.getD (2 * 1) 0 :=
  c7_step_polyline [3] [0, 1] 1 (by decide) (by decide) (by decide)

/-- Claim C9: the truth-marker bounds expansion is symmetric: a truth below
the lower limit expands only the lower limit by the overshoot plus 5% of the
range, a truth above the upper limit expands only the upper limit by the
mirror-image rule, a truth within the limits changes nothing; the upper
branch genuinely compares against the upper bound. -/
theorem c9_expand_limits (lo hi t : ℚ) :
    (t < lo → expandLimits lo hi t = (lo - (lo - t) - 5 / 100 * (hi - lo), hi)) ∧
    (lo ≤ hi → hi < t → expandLimits lo hi t = (lo, hi + (t - hi) + 5 / 100 * (hi - lo))) ∧
    (lo ≤ t → t ≤ hi → expandLimits lo hi t = (lo, hi)) ∧
    (lo ≤ hi →
      expandLimits (-hi) (-lo) (-t) = (-(expandLimits lo hi t).2, -(expandLimits lo hi t).1)) := by
  refine ⟨?_, ?_, ?_, ?_⟩
  · intro h
    rw [expandLimits, if_pos h]
  · intro hlh h
    rw [expandLimits, if_neg (by linarith), if_pos h]
  · intro h1 h2
    rw [expandLimits, if_neg (by linarith), if_neg (by linarith)]
  · intro hlh
    by_cases h1 : t < lo
    · have hA : expandLimits lo hi t = (lo - (lo - t) - 5 / 100 * (hi - lo), hi) := by
        rw [expandLimits, if_pos h1]
      have hB : expandLimits (-hi) (-lo) (-t)
          = (-hi, -lo + (-t - -lo) + 5 / 100 * (-lo - -hi)) := by
        rw [expandLimits, if_neg (by simp only [neg_lt_neg_iff]; intro hc; linarith),
          if_pos (by simp only [neg_lt_neg_iff]; exact h1)]
      rw [hA, hB]
      simp only [Prod.mk.injEq]
      constructor <;> ring
    · by_cases h2 : hi < t
      · have hA : expandLimits lo hi t = (lo, hi + (t - hi) + 5 / 100 * (hi - lo)) := by
          rw [expandLimits, if_neg h1, if_pos h2]
        have hB : expandLimits (-hi) (-lo) (-t)
            = (-hi - (-hi - -t) - 5 / 100 * (-lo - -hi), -lo) := by
          rw [expandLimits, if_pos (by simp only [neg_lt_neg_iff]; exact h2)]
        rw [hA, hB]
        simp only [Prod.mk.injEq]
        constructor <;> ring
      · have hA : expandLimits lo hi t = (lo, hi) := by
          rw [expandLimits, if_neg h1, if_neg h2]
        have hB : expandLimits (-hi) (-lo) (-t) = (-hi, -lo) := by
          rw [expandLimits, if_neg (by simp only [neg_lt_neg_iff]; exact h2),
            if_neg (by simp only [neg_lt_neg_iff]; exact h1)]
        rw [hA, hB]

/-- Witness for C9 at `(lo, hi) = (0, 10)` with truths `-5`, `12` and `7`. -/
theorem c9_expand_limits_witness :
    expandLimits (0 : ℚ) 10 (-5) = (0 - (0 - (-5)) - 5 / 100 * (10 - 0), 10) ∧
    expandLimits (0 : ℚ) 10 12 = (0, 10 + (12 - 10) + 5 / 100 * (10 - 0)) ∧
    expandLimits (0 : ℚ) 10 7 = (0, 10) ∧
    expandLimits (-10 : ℚ) (-0) (-7) = (-(expandLimits (0 : ℚ) 10 7).2, -(expandLimits (0 : ℚ) 10 7).1) :=
  ⟨(c9_expand_limits 0 10 (-5)).1 (by norm_num),
   (c9_expand_limits 0 10 12).2.1 (by norm_num) (by norm_num),
   (c9_expand_limits 0 10 7).2.2.1 (by norm_num) (by norm_num),
   (c9_expand_limits 0 10 7).2.2.2 (by norm_num)⟩

/-- Claim C10: for `0 < |x| < 1` the formatter returns the wrapped
`{:g}`-formatted string with exactly its first `'0'` character removed; for
every other value it returns the wrapped string unchanged. -/
theorem c10_my_formatter (g : ℚ → List Char) (x : ℚ) :
    (0 < |x| → |x| < 1 → my_formatter g x = removeFirstZeroChar (fmtWrap g x)) ∧
    (¬(0 < |x| ∧ |x| < 1) → my_formatter g x = fmtWrap g x) := by
  constructor
  · intro h1 h2
    rw [my_formatter, if_pos ⟨h1, h2⟩, pyReplaceFirstZero_eq_remove]
  · intro h
    rw [my_formatter, if_neg h]

/-- Witness for C10: `0.7` formatted via a `{:g}` stub returning `0.7` turns
into `$.7$` (leading zero dropped); `1.5` stays untouched. -/
theorem c10_my_formatter_witness :
    my_formatter (fun _ => ['0', '.', '7']) (7 / 10 : ℚ)
        = removeFirstZeroChar (fmtWrap (fun _ => ['0', '.', '7']) (7 / 10 : ℚ)) ∧
    my_formatter (fun _ => ['1', '.', '5']) (3 / 2 : ℚ)
        = fmtWrap (fun _ => ['1', '.', '5']) (3 / 2 : ℚ) :=
  ⟨(c10_my_formatter (fun _ => ['0', '.', '7']) (7 / 10)).1
     (by rw [show |(7 / 10 : ℚ)| = 7 / 10 from abs_of_nonneg (by norm_num)]; norm_num)
     (by rw [show |(7 / 10 : ℚ)| = 7 / 10 from abs_of_nonneg (by norm_num)]; norm_num),
   (c10_my_formatter (fun _ => ['1', '.', '5']) (3 / 2)).2 (by
     rw [show |(3 / 2 : ℚ)| = 3 / 2 from abs_of_nonneg (by norm_num)]
     norm_num)⟩

/-- Claim C8: with `intervals is None`, `confidence_2d` uses the default
interval list `1 - exp(-k²/2)` for `k = 0, 1, 2`, which is strictly
increasing and lies in `[0, 1)`. -/
theorem c8_default_intervals :
    (∀ (xs ys : List ℝ) (n : ℕ) (sc ax : Bool),
      confidence_2dFull xs ys n none sc ax = confidence_2d xs ys n defaultIntervals sc ax) ∧
    defaultIntervals = [1 - Real.exp (-(1 / 2) * 0 ^ 2), 1 - Real.exp (-(1 / 2) * 1 ^ 2),
      1 - Real.exp (-(1 / 2) * 2 ^ 2)] ∧
    List.Chain' (fun a b => a < b) defaultIntervals ∧
    defaultIntervals.Forall (fun x => 0 ≤ x ∧ x < 1) := by
  have e0 : (1 : ℝ) - Real.exp (-(1 / 2) * 0 ^ 2) = 0 := by
    norm_num
  refine ⟨fun xs ys n sc ax => rfl, by simp [defaultIntervals], ?_, ?_⟩
  · simp only [defaultIntervals, List.map_cons, List.map_nil, List.chain'_cons,
      List.chain'_singleton, and_true]
    constructor
    · rw [show -(1 / 2 : ℝ) * 0 ^ 2 = 0 by norm_num, Real.exp_zero]
      have h1 : Real.exp (-(1 / 2) * 1 ^ 2) < 1 := by
        rw [Real.exp_lt_one_iff]
        norm_num
      linarith
    · have h2 : Real.exp (-(1 / 2) * 2 ^ 2) < Real.exp (-(1 / 2) * 1 ^ 2) := by
        rw [Real.exp_lt_exp]
        norm_num
      linarith
  · simp only [defaultIntervals, List.map_cons, List.map_nil, List.Forall]
    refine ⟨⟨by rw [e0], by rw [e0]; norm_num⟩, ?_, ?_⟩
    · have hp := Real.exp_pos (-(1 / 2 : ℝ) * 1 ^ 2)
      have hl : Real.exp (-(1 / 2 : ℝ) * 1 ^ 2) ≤ 1 := by
        rw [Real.exp_le_one_iff]
        norm_num
      constructor <;> linarith
    · have hp := Real.exp_pos (-(1 / 2 : ℝ) * 2 ^ 2)
      have hl : Real.exp (-(1 / 2 : ℝ) * 2 ^ 2) ≤ 1 := by
        rw [Real.exp_le_one_iff]
        norm_num
      constructor <;> linarith


/-- Claim C3 (amended: the interval list must be nonempty): on the success
path of `confidence_2d` the level list is strictly increasing, and for a
nonempty interval list its length equals the interval list's length. -/
theorem c3_levels (xs ys : List ℚ) (n : ℕ) (ints : List ℚ) (ax : Bool) (v : List ℚ)
    (hlen : xs.length = ys.length)
    (h : confidence_2d xs ys n ints false ax = CRes.contour v) :
    List.Chain' (fun a b => a < b) v ∧ (ints ≠ [] → v.length = ints.length) := by
  have hlv := confidence_2d_contour h
  obtain ⟨h0, hs, vs, hds, htr, hv, hall⟩ := levelsFromGrid_some hlv
  constructor
  · exact (diffList_all_pos_iff v).1 hall
  · intro hne
    have h1 : vs.length = ints.tail.length := traverseOpt_length _ htr
    have h2 : ints.tail.length = ints.length - 1 := List.length_tail ints
    have h3 : 0 < ints.length := List.length_pos.2 hne
    rw [hv]
    simp only [List.length_append, List.length_reverse, List.length_singleton]
    omega

/-- Witness for C3 on a 2×2 histogram with occupancies 5, 3, 1, 1 and
intervals `[0, 17/20]`: the contour path succeeds with levels `[3, 5]`. -/
theorem c3_levels_witness :
    List.Chain' (fun a b : ℚ => a < b) [3, 5] ∧
      (([0, 17/20] : List ℚ) ≠ [] → ([3, 5] : List ℚ).length = ([0, 17/20] : List ℚ).length) :=
  c3_levels exC1x exC1y 2 [0, 17/20] true [3, 5] (by decide)
    (of_decide_eq_true (by with_unfolding_all rfl))

/-- Counterexample to C3 as stated: with the empty interval list the success
path is still taken (`np.diff` of a single level is empty, so the
monotonicity check passes vacuously) and produces one level, so the level
count differs from the interval count. -/
theorem c3_counterexample :
    confidence_2d (α := ℚ) [0, 1] [0, 1] 1 [] false true = CRes.contour [2] ∧
      ¬ (([2] : List ℚ).length = ([] : List ℚ).length) :=
  ⟨of_decide_eq_true (by with_unfolding_all rfl), by decide⟩

/-- Claim C4 evaluated: on the degenerate zero-variance input `[2, 2, 2]`
(whose level selection fails), the fallback with an axis object supplied
renders scatter with axis bounds equal to the min/max of the computed bin
edges, and no contour levels are produced; but when no axis object is
supplied (`ax=None`), the fallback branch's `fig,ax = plt.subplots` raises
`TypeError` (the function is never called — compare the correct
`plt.subplots()` on source line 61), so an exception escapes; the same
happens in explicit scatter mode. -/
theorem c4_degenerate_eval :
    confidence_2d threeTwos threeTwos 2 [0, 39/100, 43/50] false true
        = CRes.scatterFall (3/2, 5/2) (3/2, 5/2) ∧
    confidence_2d threeTwos threeTwos 2 [0, 39/100, 43/50] false false = CRes.err ∧
    confidence_2d threeTwos threeTwos 2 [0, 39/100, 43/50] true true
        = CRes.scatterFall (3/2, 5/2) (3/2, 5/2) ∧
    confidence_2d threeTwos threeTwos 2 [0, 39/100, 43/50] true false = CRes.err :=
  of_decide_eq_true (by with_unfolding_all rfl)

/-- Counterexample to C5 as stated: on the zero-variance input `[1, 1, 1]`
the binning does not signal the `min = max` condition — numpy silently
widens the range to `(1/2, 3/2)`, a perfectly ordinary positive-width edge
pair, and builds the histogram (all mass in one bin); the level computation
is then attempted, its interval selection comes up empty, and `confidence_2d`
falls back to scatter. -/
theorem c5_counterexample :
    outerEdges threeOnes = (1/2, 3/2) ∧ ((1 : ℚ)/2 < 3/2) ∧
    gridCounts threeOnes threeOnes 2 = [0, 0, 0, 3] ∧
    confidence_2d threeOnes threeOnes 2 [0, 39/100] false true
        = CRes.scatterFall (1/2, 3/2) (1/2, 3/2) :=
  of_decide_eq_true (by with_unfolding_all rfl)

/-- Counterexample to C6 as stated: two traces with one axis label emit the
dimension-mismatch warning, but the render does not complete — the
unguarded `axis_labels[y_var]` access on source line 337 raises `IndexError`
for `y_var = 1`, aborting the whole render. -/
theorem c6_counterexample :
    corner_plot_warnings 2 (some 1) none = [Warn.labelMismatch] ∧
      corner_plot_completes 2 (some 1) none = false := by
  decide

theorem range_all_lt_iff (k m : ℕ) :
    (((List.range k).all fun i => decide (i < m)) = true) ↔ k ≤ m := by
  rw [List.all_eq_true]
  constructor
  · intro h
    rcases Nat.eq_zero_or_pos k with hk | hk
    · omega
    · have := h (k - 1) (by rw [List.mem_range]; omega)
      rw [decide_eq_true_eq] at this
      omega
  · intro h i hi
    rw [List.mem_range] at hi
    rw [decide_eq_true_eq]
    omega

theorem range'_all_lt_iff (k m : ℕ) :
    (((List.range' 1 k).all fun i => decide (i < m)) = true) ↔ (k = 0 ∨ k < m) := by
  rw [List.all_eq_true]
  constructor
  · intro h
    rcases Nat.eq_zero_or_pos k with hk | hk
    · exact Or.inl hk
    · right
      have := h k (by rw [List.mem_range'_1]; omega)
      rw [decide_eq_true_eq] at this
      omega
  · intro h i hi
    rw [List.mem_range'_1] at hi
    rw [decide_eq_true_eq]
    omega

/-- Claim C6 (amended): a dimension mismatch between the trace count and the
label or truths list always emits the corresponding stderr warning, and the
warning itself never aborts; but the render completes if and only if each
supplied list covers every variable index (length at least the trace count) —
a longer mismatched list is tolerated with the surplus ignored (and the truths
overlay is still drawn, not skipped), while a shorter one aborts the render
with an uncaught `IndexError`. -/
theorem c6_mismatch (n : ℕ) (nLabels nTruths : Option ℕ) (hn : 2 ≤ n) :
    (corner_plot_warnings n nLabels nTruths ≠ [] ↔
        (nLabels.getD n ≠ n ∨ ∃ t, nTruths = some t ∧ t ≠ n)) ∧
    (corner_plot_completes n nLabels nTruths = true ↔
        (n ≤ nLabels.getD n ∧ ∀ t, nTruths = some t → n ≤ t)) := by
  constructor
  · unfold corner_plot_warnings
    rcases nTruths with _ | nt
    · simp only [Option.elim_none, List.append_nil]
      by_cases h1 : n ≠ nLabels.getD n
      · rw [if_pos h1]
        simp only [ne_eq, reduceCtorEq, not_false_eq_true, true_iff]
        refine Or.inl (by omega)
      · rw [if_neg h1]
        push_neg at h1
        constructor
        · intro hcon
          exact absurd rfl hcon
        · intro hor
          rcases hor with hl | ⟨t, ht, _⟩
          · exact absurd h1.symm hl
          · cases ht
    · simp only [Option.elim_some]
      by_cases h1 : n ≠ nLabels.getD n
      · rw [if_pos h1]
        by_cases h2 : nt ≠ n
        · rw [if_pos h2]
          simp only [ne_eq, List.cons_append, reduceCtorEq, not_false_eq_true, true_iff]
          refine Or.inl (by omega)
        · rw [if_neg h2]
          simp only [ne_eq, List.append_nil, reduceCtorEq, not_false_eq_true, true_iff]
          refine Or.inl (by omega)
      · rw [if_neg h1]
        push_neg at h1
        by_cases h2 : nt ≠ n
        · rw [if_pos h2]
          simp only [ne_eq, List.nil_append, reduceCtorEq, not_false_eq_true, true_iff]
          exact Or.inr ⟨nt, rfl, h2⟩
        · rw [if_neg h2]
          push_neg at h2
          constructor
          · intro hcon
            exact absurd rfl hcon
          · intro hor
            rcases hor with hl | ⟨t, ht, htn⟩
            · exact absurd h1.symm hl
            · rw [Option.some.injEq] at ht
              subst ht
              exact absurd h2 htn
  · unfold corner_plot_completes
    rcases nTruths with _ | nt
    · simp only [Option.elim_none]
      rw [Bool.and_true, Bool.and_eq_true, Bool.and_eq_true, decide_eq_true_eq,
        range_all_lt_iff, range'_all_lt_iff]
      constructor
      · intro hc
        exact ⟨by omega, by intro t ht; cases ht⟩
      · intro hc
        obtain ⟨ha, _⟩ := hc
        exact ⟨⟨by omega, by omega⟩, by omega⟩
    · simp only [Option.elim_some]
      rw [Bool.and_eq_true, Bool.and_eq_true, Bool.and_eq_true, Bool.and_eq_true,
        decide_eq_true_eq, decide_eq_true_eq, range_all_lt_iff, range'_all_lt_iff,
        List.all_eq_true]
      constructor
      · intro hc
        obtain ⟨⟨⟨ha, hb⟩, hcc⟩, hd, _⟩ := hc
        refine ⟨by omega, ?_⟩
        intro t ht
        cases ht
        omega
      · intro hc
        obtain ⟨ha, hb⟩ := hc
        have hnt : n ≤ nt := hb nt rfl
        refine ⟨⟨⟨by omega, by omega⟩, by omega⟩, by omega, ?_⟩
        intro y hy
        rw [List.all_eq_true]
        intro x hx
        rw [List.mem_range] at hy hx
        rw [Bool.and_eq_true, decide_eq_true_eq, decide_eq_true_eq]
        omega

/-- Witness for C6 at three traces, five labels, three truths: the label
mismatch warns, and the render completes since both lists cover all three
variables. -/
theorem c6_mismatch_witness :
    (corner_plot_warnings 3 (some 5) (some 3) ≠ [] ↔
        ((some 5).getD 3 ≠ 3 ∨ ∃ t, (some 3 : Option ℕ) = some t ∧ t ≠ 3)) ∧
    (corner_plot_completes 3 (some 5) (some 3) = true ↔
        (3 ≤ (some 5).getD 3 ∧ ∀ t, (some 3 : Option ℕ) = some t → 3 ≤ t)) :=
  c6_mismatch 3 (some 5) (some 3) (by decide)



/-! Support lemmas for the zero-variance analysis (C5). -/

theorem foldl_min_replicate (m : ℕ) (c : ℚ) : (List.replicate m c).foldl min c = c := by
  induction m with
  | zero => rfl
  | succ m ih => rw [List.replicate_succ, List.foldl_cons, min_self, ih]

theorem foldl_max_replicate (m : ℕ) (c : ℚ) : (List.replicate m c).foldl max c = c := by
  induction m with
  | zero => rfl
  | succ m ih => rw [List.replicate_succ, List.foldl_cons, max_self, ih]

theorem outerEdges_replicate (c : ℚ) (k : ℕ) (hk : 0 < k) :
    outerEdges (List.replicate k c) = (c - 1/2, c + 1/2) := by
  obtain ⟨m, rfl⟩ : ∃ m, k = m + 1 := ⟨k - 1, by omega⟩
  rw [List.replicate_succ]
  unfold outerEdges
  simp [foldl_min_replicate, foldl_max_replicate]

theorem countP_replicate {β : Type} (p : β → Bool) (m : ℕ) (a : β) :
    (List.replicate m a).countP p = if p a then m else 0 := by
  induction m with
  | zero => simp
  | succ m ih =>
    rw [List.replicate_succ]
    by_cases hpa : p a = true
    · rw [List.countP_cons_of_pos _ _ hpa, ih, if_pos hpa, if_pos hpa]
    · rw [List.countP_cons_of_neg _ _ hpa, ih, if_neg hpa, if_neg hpa]

theorem map_range_ite {β : Type} (m j : ℕ) (hj : j < m) (u v : β) :
    (List.range m).map (fun b => if j = b then u else v)
      = List.replicate j v ++ u :: List.replicate (m - j - 1) v := by
  have hm : m = j + (1 + (m - j - 1)) := by omega
  rw [hm, List.range_add, List.map_append]
  congr 1
  · apply List.eq_replicate.2
    refine ⟨by simp, ?_⟩
    intro b hb
    simp only [List.mem_map, List.mem_range] at hb
    obtain ⟨i, hi, rfl⟩ := hb
    rw [if_neg (by omega)]
  · rw [List.map_map, List.range_add, show List.range 1 = [0] from rfl]
    simp only [List.map_cons, List.map_nil, List.singleton_append, List.map_map,
      Function.comp_apply]
    congr 1
    · simp
    · apply List.eq_replicate.2
      refine ⟨by simp, ?_⟩
      intro b hb
      simp only [List.mem_map, List.mem_range, Function.comp_apply] at hb
      obtain ⟨i, hi, rfl⟩ := hb
      rw [if_neg (by omega)]

theorem descSort_sorted (l : List ℚ) : (descSort l).Sorted (fun a b => b ≤ a) := by
  unfold descSort
  rw [List.Sorted, List.pairwise_reverse]
  exact List.sorted_insertionSort (fun a b => a ≤ b) l

theorem descSort_perm (l : List ℚ) : (descSort l).Perm l := by
  unfold descSort
  exact (List.reverse_perm _).trans (List.perm_insertionSort _ l)

theorem getLastD_cons_replicate (m : ℕ) (a d : ℚ) :
    (a :: List.replicate m a).getLastD d = a := by
  induction m generalizing d with
  | zero => rfl
  | succ m ih =>
    rw [List.replicate_succ, List.getLastD_cons]
    exact ih a

theorem cumsum_replicate_zero (m : ℕ) : cumsum (List.replicate m (0:ℚ)) = List.replicate m 0 := by
  induction m with
  | zero => rfl
  | succ m ih =>
    rw [List.replicate_succ, cumsum, ih, List.map_replicate]
    simp

theorem gridCounts_const (c : ℚ) (k n : ℕ) (hk : 0 < k) (hn : 0 < n) :
    ∃ b0 : ℕ, b0 < n * n ∧
      gridCounts (List.replicate k c) (List.replicate k c) n
        = List.replicate b0 0 ++ (k :: List.replicate (n * n - b0 - 1) 0) := by
  set B := binIdx (c - 1/2) (c + 1/2) n c with hB
  have hb0 : B * n + B < n * n := by
    have hBle : B ≤ n - 1 := Nat.min_le_right _ _
    obtain ⟨m, hm⟩ : ∃ m, n = m + 1 := ⟨n - 1, by omega⟩
    subst hm
    have h1 : B * (m + 1) ≤ m * (m + 1) := Nat.mul_le_mul_right _ (by omega)
    have h2 : m * (m + 1) + m + 1 = (m + 1) * (m + 1) := by ring
    omega
  refine ⟨B * n + B, hb0, ?_⟩
  simp only [gridCounts]
  rw [outerEdges_replicate c k hk, List.zip_replicate, min_self]
  have hmap : (List.range (n * n)).map (fun b => (List.replicate k (c, c)).countP
      (fun q => decide (binIdx (c - 1/2, c + 1/2).1 (c - 1/2, c + 1/2).2 n q.1 * n
        + binIdx (c - 1/2, c + 1/2).1 (c - 1/2, c + 1/2).2 n q.2 = b)))
      = (List.range (n * n)).map (fun b => if B * n + B = b then k else 0) := by
    apply List.map_congr_left
    intro b _
    rw [countP_replicate]
    simp only [← hB]
    by_cases hb : B * n + B = b
    · rw [if_pos (by simpa using hb), if_pos hb]
    · rw [if_neg (by simpa using hb), if_neg hb]
  rw [hmap, map_range_ite (n * n) (B * n + B) hb0 k 0]

theorem gridVals_const (c : ℚ) (k n : ℕ) (hk : 0 < k) (hn : 0 < n) :
    ∃ b0 : ℕ, b0 < n * n ∧
      gridVals (List.replicate k c) (List.replicate k c) n
        = List.replicate b0 (0:ℚ) ++ ((k:ℚ) :: List.replicate (n * n - b0 - 1) 0) := by
  obtain ⟨b0, hb0, hg⟩ := gridCounts_const c k n hk hn
  refine ⟨b0, hb0, ?_⟩
  unfold gridVals
  rw [hg, List.map_append, List.map_replicate, List.map_cons, List.map_replicate]
  simp

theorem descSort_const_grid (c : ℚ) (k n : ℕ) (hk : 0 < k) (hn : 0 < n) :
    descSort (gridVals (List.replicate k c) (List.replicate k c) n)
      = (k:ℚ) :: List.replicate (n * n - 1) 0 := by
  obtain ⟨b0, hb0, hgrid⟩ := gridVals_const c k n hk hn
  have hperm : (descSort (gridVals (List.replicate k c) (List.replicate k c) n)).Perm
      ((k:ℚ) :: List.replicate (n * n - 1) 0) := by
    refine (descSort_perm _).trans ?_
    rw [hgrid]
    refine List.perm_middle.trans ?_
    rw [← List.replicate_add]
    have : b0 + (n * n - b0 - 1) = n * n - 1 := by omega
    rw [this]
  refine @List.eq_of_perm_of_sorted ℚ (fun a b => b ≤ a)
    ⟨fun a b hab hba => le_antisymm hba hab⟩ _ _ hperm (descSort_sorted _) ?_
  rw [List.Sorted, List.pairwise_cons]
  constructor
  · intro b hb
    rw [List.eq_of_mem_replicate hb]
    exact Nat.cast_nonneg k
  · rw [List.pairwise_replicate]
    exact Or.inr le_rfl

theorem cdfOf_const_grid (k m : ℕ) (hk : 0 < k) :
    cdfOf ((k:ℚ) :: List.replicate m 0) = 1 :: List.replicate m 1 := by
  have hkQ : (k:ℚ) ≠ 0 := Nat.cast_ne_zero.2 (by omega)
  have hcs : cumsum ((k:ℚ) :: List.replicate m 0) = (k:ℚ) :: List.replicate m (k:ℚ) := by
    rw [cumsum, cumsum_replicate_zero, List.map_replicate]
    simp
  unfold cdfOf
  rw [hcs, getLastD_cons_replicate, List.map_cons, List.map_replicate, div_self hkQ]

theorem select_const_grid_none (k m : ℕ) (p : ℚ) (hp : p < 1) :
    select ((k:ℚ) :: List.replicate m 0) (1 :: List.replicate m 1) p = none := by
  unfold select
  rw [List.zip_cons_cons, List.zip_replicate, min_self]
  have hfil : (((k:ℚ), (1:ℚ)) :: List.replicate m ((0:ℚ), (1:ℚ))).filter
      (fun q => decide (q.2 ≤ p)) = [] := by
    rw [List.filter_eq_nil_iff]
    intro a ha
    rcases List.mem_cons.1 ha with rfl | hmem
    · simp [not_le.2 hp]
    · rw [List.eq_of_mem_replicate hmem]
      simp [not_le.2 hp]
  rw [hfil]
  rfl



theorem foldl_min_le_self (t : List ℚ) : ∀ a : ℚ, t.foldl min a ≤ a := by
  induction t with
  | nil => intro a; exact le_refl a
  | cons b t ih => intro a; exact le_trans (ih (min a b)) (min_le_left a b)

theorem le_foldl_min (t : List ℚ) : ∀ a b : ℚ, b ≤ a → (∀ x ∈ t, b ≤ x) →
    b ≤ t.foldl min a := by
  induction t with
  | nil => intro a b hba _; exact hba
  | cons x t ih =>
    intro a b hba hall
    exact ih _ _ (le_min hba (hall x (by simp))) fun y hy => hall y (by simp [hy])

theorem le_foldl_max_self (t : List ℚ) : ∀ a : ℚ, a ≤ t.foldl max a := by
  induction t with
  | nil => intro a; exact le_refl a
  | cons b t ih => intro a; exact le_trans (le_max_left a b) (ih (max a b))

theorem foldl_max_le (t : List ℚ) : ∀ a b : ℚ, a ≤ b → (∀ x ∈ t, x ≤ b) →
    t.foldl max a ≤ b := by
  induction t with
  | nil => intro a b hab _; exact hab
  | cons x t ih =>
    intro a b hab hall
    exact ih _ _ (max_le hab (hall x (by simp))) fun y hy => hall y (by simp [hy])

theorem le_foldl_max_of_mem {x : ℚ} {t : List ℚ} (hx : x ∈ t) : ∀ a : ℚ, x ≤ t.foldl max a := by
  induction t with
  | nil => cases hx
  | cons b t ih =>
    intro a
    rcases List.mem_cons.1 hx with rfl | hmem
    · exact le_trans (le_max_right a x) (le_foldl_max_self t (max a x))
    · exact ih hmem (max a b)

theorem edges_bounds (lo hi : ℚ) (n : ℕ) (hlo : lo < hi) (hn : 0 < n) :
    listMin (edgesList lo hi n) = lo ∧ listMax (edgesList lo hi n) = hi := by
  have hn0 : (0:ℚ) < (n:ℚ) := by exact_mod_cast hn
  have hw : (0:ℚ) < hi - lo := sub_pos.2 hlo
  have hrange : List.range (n + 1) = 0 :: (List.range n).map Nat.succ :=
    List.range_succ_eq_map n
  have hedges : edgesList lo hi n
      = lo :: (List.range n).map (fun i => lo + (Nat.succ i : ℚ) * (hi - lo) / n) := by
    unfold edgesList
    rw [hrange, List.map_cons, List.map_map]
    congr 1
    · simp
  have hmemlo : ∀ x ∈ (List.range n).map (fun i => lo + (Nat.succ i : ℚ) * (hi - lo) / n),
      lo ≤ x := by
    intro x hx
    simp only [List.mem_map, List.mem_range] at hx
    obtain ⟨i, hi2, rfl⟩ := hx
    have : (0:ℚ) ≤ (Nat.succ i : ℚ) * (hi - lo) / n :=
      div_nonneg (mul_nonneg (Nat.cast_nonneg _) (le_of_lt hw)) (le_of_lt hn0)
    linarith
  have hmemhi : ∀ x ∈ (List.range n).map (fun i => lo + (Nat.succ i : ℚ) * (hi - lo) / n),
      x ≤ hi := by
    intro x hx
    simp only [List.mem_map, List.mem_range] at hx
    obtain ⟨i, hi2, rfl⟩ := hx
    have hsc : ((Nat.succ i : ℕ) : ℚ) ≤ (n : ℚ) := by
      exact_mod_cast Nat.succ_le_of_lt hi2
    have h1 : (Nat.succ i : ℚ) * (hi - lo) / n ≤ hi - lo := by
      rw [div_le_iff hn0]
      calc (Nat.succ i : ℚ) * (hi - lo) ≤ (n : ℚ) * (hi - lo) :=
            mul_le_mul_of_nonneg_right hsc (le_of_lt hw)
        _ = (hi - lo) * (n : ℚ) := mul_comm _ _
    linarith
  constructor
  · rw [hedges]
    show (((List.range n).map (fun i => lo + (Nat.succ i : ℚ) * (hi - lo) / n)).foldl min lo) = lo
    exact le_antisymm (foldl_min_le_self _ lo) (le_foldl_min _ lo lo (le_refl lo) hmemlo)
  · rw [hedges]
    show (((List.range n).map (fun i => lo + (Nat.succ i : ℚ) * (hi - lo) / n)).foldl max lo) = hi
    refine le_antisymm (foldl_max_le _ lo hi (le_of_lt hlo) hmemhi) ?_
    have hhi_mem : hi ∈ (List.range n).map (fun i => lo + (Nat.succ i : ℚ) * (hi - lo) / n) := by
      rw [List.mem_map]
      refine ⟨n - 1, by rw [List.mem_range]; omega, ?_⟩
      have hsn : (Nat.succ (n - 1) : ℕ) = n := by omega
      rw [hsn]
      rw [mul_comm, mul_div_assoc, div_self (ne_of_gt hn0), mul_one]
      ring
    exact le_foldl_max_of_mem hhi_mem lo

/-- Claim C5 (amended): a zero-variance sample set is not signalled by the
binning — numpy silently widens the degenerate `min = max` range by ±0.5 and
produces an ordinary histogram with every sample in a single bin (so no NaN
and no zero-width-bin division fault occurs); the level computation is then
attempted, its first interval selection (for any target below 1) selects
nothing, and the estimator falls back to scatter with bounds equal to the
widened bin-edge extremes. -/
theorem c5_zero_variance (c : ℚ) (k n : ℕ) (i0 p : ℚ) (rest : List ℚ)
    (hk : 0 < k) (hn : 0 < n) (hp : p < 1) :
    outerEdges (List.replicate k c) = (c - 1/2, c + 1/2) ∧
    confidence_2d (List.replicate k c) (List.replicate k c) n (i0 :: p :: rest) false true
      = CRes.scatterFall (c - 1/2, c + 1/2) (c - 1/2, c + 1/2) := by
  have hoe := outerEdges_replicate c k hk
  refine ⟨hoe, ?_⟩
  have hlo : c - 1/2 < c + 1/2 := by linarith
  have hds := descSort_const_grid c k n hk hn
  have hcdf := cdfOf_const_grid k (n * n - 1) hk
  have hlv : levelsFromGrid (gridVals (List.replicate k c) (List.replicate k c) n)
      (i0 :: p :: rest) = none := by
    unfold levelsFromGrid
    rw [hds, hcdf]
    have htail : (i0 :: p :: rest).tail = p :: rest := rfl
    rw [htail]
    have hsel := select_const_grid_none k (n * n - 1) p hp
    have htrv : traverseOpt (fun q => select ((k:ℚ) :: List.replicate (n * n - 1) 0)
        (1 :: List.replicate (n * n - 1) 1) q) (p :: rest) = none := by
      rw [traverseOpt]
      rw [hsel]
    rw [htrv]
  have he := edges_bounds (c - 1/2) (c + 1/2) n hlo hn
  simp [confidence_2d, hoe, hlv]
  simpa using he

/-- Witness for C5 at the spec scenario: ten identical samples `1`, five
bins, interval targets `0, 0.39, 0.86`. -/
theorem c5_zero_variance_witness :
    outerEdges (List.replicate 10 (1:ℚ)) = (1 - 1/2, 1 + 1/2) ∧
    confidence_2d (List.replicate 10 (1:ℚ)) (List.replicate 10 (1:ℚ)) 5
        (0 :: (39/100) :: [43/50]) false true
      = CRes.scatterFall (1 - 1/2, 1 + 1/2) (1 - 1/2, 1 + 1/2) :=
  c5_zero_variance 1 10 5 0 (39/100) [43/50] (by decide) (by decide) (by norm_num)



/-! Support lemmas for the selection-rule analysis (C1, C2). -/

theorem getLast?_filter_iff {β : Type} (pr : β → Bool) :
    ∀ (l : List β) (b : β), ((l.filter pr).getLast? = some b ↔
      ∃ j, l.get? j = some b ∧ pr b = true ∧
        ∀ m q, j < m → l.get? m = some q → pr q = false) := by
  intro l
  induction l using List.reverseRecOn with
  | nil =>
    intro b
    constructor
    · intro h
      simp at h
    · rintro ⟨j, hj, _, _⟩
      simp at hj
  | append_singleton l a ih =>
    intro b
    rw [List.filter_append]
    by_cases hpa : pr a = true
    · rw [show List.filter pr [a] = [a] by simp [hpa], List.getLast?_concat]
      constructor
      · intro h
        have hb : a = b := Option.some.inj h
        subst hb
        refine ⟨l.length, List.get?_concat_length l a, hpa, ?_⟩
        intro m q hm hq
        have hmlen : (l ++ [a]).length ≤ m := by
          simp only [List.length_append, List.length_singleton]
          omega
        rw [List.get?_eq_none.2 hmlen] at hq
        cases hq
      · rintro ⟨j, hj, hprb, hmax⟩
        by_cases hjl : j < l.length
        · have hq := List.get?_concat_length l a
          have hcon := hmax l.length a hjl hq
          rw [hpa] at hcon
          cases hcon
        · have hlen : j < l.length + 1 := by
            by_contra hcon
            rw [List.get?_eq_none.2 (by simp; omega)] at hj
            cases hj
          have hj' : j = l.length := by omega
          subst hj'
          rw [List.get?_concat_length] at hj
          exact hj
    · rw [show List.filter pr [a] = [] by simp [hpa], List.append_nil, ih b]
      have hpa' : pr a = false := by
        rcases Bool.eq_false_or_eq_true (pr a) with h | h
        · exact absurd h hpa
        · exact h
      constructor
      · rintro ⟨j, hj, hprb, hmax⟩
        have hjl : j < l.length := by
          by_contra hcon
          rw [List.get?_eq_none.2 (by omega)] at hj
          cases hj
        refine ⟨j, by rw [List.get?_append hjl]; exact hj, hprb, ?_⟩
        intro m q hm hq
        by_cases hml : m < l.length
        · rw [List.get?_append hml] at hq
          exact hmax m q hm hq
        · have hmlen : m < l.length + 1 := by
            by_contra hcon
            rw [List.get?_eq_none.2 (by simp; omega)] at hq
            cases hq
          have hmeq : m = l.length := by omega
          subst hmeq
          rw [List.get?_concat_length] at hq
          rw [← Option.some.inj hq]
          exact hpa'
      · rintro ⟨j, hj, hprb, hmax⟩
        have hjlen : j < l.length + 1 := by
          by_contra hcon
          rw [List.get?_eq_none.2 (by simp; omega)] at hj
          cases hj
        by_cases hjl : j < l.length
        · rw [List.get?_append hjl] at hj
          refine ⟨j, hj, hprb, ?_⟩
          intro m q hm hq
          have hml : m < l.length := by
            by_contra hcon
            rw [List.get?_eq_none.2 (by omega)] at hq
            cases hq
          exact hmax m q hm (by rw [List.get?_append hml]; exact hq)
        · have hjeq : j = l.length := by omega
          subst hjeq
          rw [List.get?_concat_length] at hj
          have hba : a = b := Option.some.inj hj
          subst hba
          exact absurd hprb (by rw [hpa']; simp)

theorem select_eq_some_iff (h cdf : List ℚ) (p v : ℚ) :
    select h cdf p = some v ↔
      ∃ j c, (h.zip cdf).get? j = some (v, c) ∧ c ≤ p ∧
        ∀ m q, j < m → (h.zip cdf).get? m = some q → p < q.2 := by
  unfold select
  rw [Option.map_eq_some']
  constructor
  · rintro ⟨b, hb, hbv⟩
    rw [getLast?_filter_iff] at hb
    obtain ⟨j, hj, hpr, hmax⟩ := hb
    refine ⟨j, b.2, ?_, by simpa using hpr, ?_⟩
    · rw [← hbv, Prod.mk.eta]
      exact hj
    · intro m q hm hq
      have := hmax m q hm hq
      simpa [not_le] using (by simpa using this : ¬ q.2 ≤ p)
  · rintro ⟨j, c, hj, hc, hmax⟩
    refine ⟨(v, c), ?_, rfl⟩
    rw [getLast?_filter_iff]
    refine ⟨j, hj, by simpa using hc, ?_⟩
    intro m q hm hq
    exact decide_eq_false (not_le.2 (hmax m q hm hq))



/-- Claim C1 (amended): the level computation sorts the flattened bin
occupancies into descending order (a descending-sorted permutation of the
grid); for each requested interval value `p` past the first anchor the chosen
threshold is the occupancy at the GREATEST RANK `j` in the descending-sorted
list whose running cumulative fraction `cdf[j]` does not exceed `p` — not the
largest occupancy VALUE whose at-or-above mass stays within `p`; the chosen
thresholds are then reversed into ascending order and the maximum single-bin
occupancy (the head of the descending sort) is appended as the outermost
level. -/
theorem c1_level_pipeline :
    (∀ H : List ℚ, (descSort H).Sorted (fun a b => b ≤ a) ∧ (descSort H).Perm H) ∧
    (∀ (h cdf : List ℚ) (p v : ℚ), select h cdf p = some v ↔
      ∃ j c, (h.zip cdf).get? j = some (v, c) ∧ c ≤ p ∧
        ∀ m q, j < m → (h.zip cdf).get? m = some q → p < q.2) ∧
    (∀ H ints v : List ℚ, levelsFromGrid H ints = some v →
      ∃ vs, traverseOpt (fun p => select (descSort H) (cdfOf (descSort H)) p) ints.tail
          = some vs ∧ v = vs.reverse ++ [(descSort H).headD 0]) ∧
    (∀ H : List ℚ, H ≠ [] →
      (descSort H).headD 0 ∈ H ∧ ∀ x ∈ H, x ≤ (descSort H).headD 0) := by
  refine ⟨fun H => ⟨descSort_sorted H, descSort_perm H⟩, select_eq_some_iff, ?_, ?_⟩
  · intro H ints v hlv
    obtain ⟨h0, hs, vs, hds, htr, hv, _⟩ := levelsFromGrid_some hlv
    refine ⟨vs, htr, ?_⟩
    rw [hds, hv]
    rfl
  · intro H hne
    have hperm := descSort_perm H
    have hsort := descSort_sorted H
    obtain ⟨a, t, hat⟩ : ∃ a t, descSort H = a :: t := by
      cases hds : descSort H with
      | nil =>
        have := hperm.length_eq
        rw [hds] at this
        simp at this
        exact absurd (List.eq_nil_of_length_eq_zero this.symm) hne
      | cons a t => exact ⟨a, t, rfl⟩
    rw [hat]
    rw [hat] at hperm hsort
    rw [List.Sorted, List.pairwise_cons] at hsort
    constructor
    · exact hperm.mem_iff.1 (by simp)
    · intro x hx
      have hx' : x ∈ a :: t := hperm.mem_iff.2 hx
      rcases List.mem_cons.1 hx' with rfl | hmem
      · exact le_refl x
      · exact hsort.1 x hmem

/-- Witness for C1: the appended outermost level of `[0, 2, 1]` is its
maximum occupancy `2`. -/
theorem c1_level_pipeline_witness :
    (descSort [0, 2, 1] : List ℚ).headD 0 ∈ ([0, 2, 1] : List ℚ) ∧
      ∀ x ∈ ([0, 2, 1] : List ℚ), x ≤ (descSort [0, 2, 1] : List ℚ).headD 0 :=
  c1_level_pipeline.2.2.2 [0, 2, 1] (by decide)

/-- Counterexample to C1 as stated: on a 2×2 histogram with occupancies
5, 3, 1, 1 and `p = 17/20`, the claimed rule ("the largest bin-occupancy
value whose at-or-above cumulative mass does not exceed p") picks 5
(mass 5/10 ≤ 17/20), but the code picks 3 (the deepest descending rank with
cdf ≤ 17/20 is rank 1, cdf = 8/10), and the produced level list is `[3, 5]`,
not containing 5 as the chosen threshold for `p`. -/
theorem c1_counterexample :
    select (descSort (gridVals exC1x exC1y 2)) (cdfOf (descSort (gridVals exC1x exC1y 2)))
        (17/20) = some 3 ∧
    claimThreshold (gridVals exC1x exC1y 2) (17/20) = some 5 ∧
    ¬ ((3:ℚ) = 5) ∧
    levelsFromGrid (gridVals exC1x exC1y 2) [0, 17/20] = some [3, 5] :=
  of_decide_eq_true (by with_unfolding_all rfl)



theorem cumsum_length (l : List ℚ) : (cumsum l).length = l.length := by
  induction l with
  | nil => rfl
  | cons a t ih => simp [cumsum, ih]

theorem getLastD_map_add (a : ℚ) : ∀ (l : List ℚ) (c : ℚ),
    (l.map (fun s => a + s)).getLastD (a + c) = a + l.getLastD c := by
  intro l
  induction l with
  | nil => intro c; rfl
  | cons d ds ih =>
    intro c
    rw [List.map_cons, List.getLastD_cons, List.getLastD_cons]
    exact ih d

theorem cumsum_getLastD_eq_sum (l : List ℚ) : (cumsum l).getLastD 0 = l.sum := by
  induction l with
  | nil => rfl
  | cons a t ih =>
    have hmap := getLastD_map_add a (cumsum t) 0
    rw [add_zero] at hmap
    rw [cumsum, List.getLastD_cons, hmap, ih, List.sum_cons]

theorem cumsum_get? (l : List ℚ) :
    ∀ j s, (cumsum l).get? j = some s → s = (l.take (j + 1)).sum := by
  induction l with
  | nil =>
    intro j s h
    simp [cumsum] at h
  | cons a t ih =>
    intro j s h
    rw [cumsum] at h
    cases j with
    | zero =>
      simp only [List.get?_cons_zero, Option.some.injEq] at h
      simp [← h]
    | succ j =>
      simp only [List.get?_cons_succ] at h
      rw [List.get?_map] at h
      cases hct : (cumsum t).get? j with
      | none =>
        rw [hct] at h
        cases h
      | some s' =>
        rw [hct] at h
        simp only [Option.map_some', Option.some.injEq] at h
        rw [← h, ih j s' hct]
        simp [List.sum_cons]

theorem zip_get?_some {l1 l2 : List ℚ} :
    ∀ {j : ℕ} {a b : ℚ}, ((l1.zip l2).get? j = some (a, b) ↔
      l1.get? j = some a ∧ l2.get? j = some b) := by
  intro j a b
  induction l1 generalizing l2 j with
  | nil =>
    constructor
    · intro h
      simp [List.zip] at h
    · rintro ⟨h, _⟩
      simp at h
  | cons x t ih =>
    cases l2 with
    | nil =>
      constructor
      · intro h
        simp [List.zip] at h
      · rintro ⟨_, h⟩
        simp at h
    | cons y u =>
      cases j with
      | zero =>
        rw [List.zip_cons_cons]
        simp
      | succ j =>
        rw [List.zip_cons_cons]
        simp only [List.get?_cons_succ]
        exact ih

theorem sum_filter_le_sum (l : List ℚ) (pr : ℚ → Bool) (hnn : ∀ x ∈ l, 0 ≤ x) :
    (l.filter pr).sum ≤ l.sum := by
  induction l with
  | nil => simp
  | cons a t ih =>
    have ha : 0 ≤ a := hnn a (by simp)
    have ht : ∀ x ∈ t, 0 ≤ x := fun x hx => hnn x (by simp [hx])
    rw [List.filter_cons]
    by_cases hpa : pr a = true
    · rw [if_pos hpa, List.sum_cons, List.sum_cons]
      exact add_le_add_left (ih ht) a
    · rw [if_neg hpa, List.sum_cons]
      calc (t.filter pr).sum ≤ t.sum := ih ht
        _ ≤ a + t.sum := le_add_of_nonneg_left ha

theorem sum_nonneg_of_mem (l : List ℚ) (hnn : ∀ x ∈ l, 0 ≤ x) : 0 ≤ l.sum := by
  induction l with
  | nil => simp
  | cons a t ih =>
    rw [List.sum_cons]
    exact add_nonneg (hnn a (by simp)) (ih fun x hx => hnn x (by simp [hx]))



theorem gridVals_nonneg (xs ys : List ℚ) (n : ℕ) : ∀ x ∈ gridVals xs ys n, 0 ≤ x := by
  intro x hx
  unfold gridVals at hx
  obtain ⟨k, _, rfl⟩ := List.mem_map.1 hx
  exact Nat.cast_nonneg k

theorem sorted_head_max (l : List ℚ) (hs : l.Sorted (fun a b => b ≤ a)) :
    ∀ x ∈ l, x ≤ l.headD 0 := by
  cases l with
  | nil =>
    intro x hx
    cases hx
  | cons a t =>
    rw [List.Sorted, List.pairwise_cons] at hs
    intro x hx
    rcases List.mem_cons.1 hx with rfl | hmem
    · exact le_refl x
    · exact hs.1 x hmem

theorem select_mass_bounds (H : List ℚ) (p v : ℚ)
    (hnn : ∀ x ∈ H, 0 ≤ x) (hT : 0 < H.sum) (hp : p ≤ 1)
    (hsel : select (descSort H) (cdfOf (descSort H)) p = some v) :
    (H.filter fun x => decide (v < x)).sum ≤ p * H.sum ∧
    p * H.sum < (H.filter fun x => decide (v ≤ x)).sum + (descSort H).headD 0 := by
  set h := descSort H with hh
  have hperm : h.Perm H := descSort_perm H
  have hsort : h.Sorted (fun a b => b ≤ a) := descSort_sorted H
  have hsum : h.sum = H.sum := hperm.sum_eq
  have hnn2 : ∀ x ∈ h, 0 ≤ x := fun x hx => hnn x (hperm.mem_iff.1 hx)
  rw [select_eq_some_iff] at hsel
  obtain ⟨j, cval, hzip, hcle, hmax⟩ := hsel
  obtain ⟨hhj, hcj⟩ := zip_get?_some.1 hzip
  have hjlt : j < h.length := by
    by_contra hcon
    rw [List.get?_eq_none.2 (by omega)] at hhj
    cases hhj
  have hcdf_len : (cdfOf h).length = h.length := by
    simp [cdfOf, cumsum_length]
  have hcdf_val : ∀ m c, (cdfOf h).get? m = some c →
      ∃ s, (cumsum h).get? m = some s ∧ c = s / (cumsum h).getLastD 0 := by
    intro m c hm
    unfold cdfOf at hm
    rw [List.get?_map] at hm
    cases hg : (cumsum h).get? m with
    | none =>
      rw [hg] at hm
      cases hm
    | some s =>
      rw [hg] at hm
      exact ⟨s, rfl, (Option.some.inj hm).symm⟩
  obtain ⟨s, hcs, hsval⟩ := hcdf_val j cval hcj
  have hssum : s = (h.take (j + 1)).sum := cumsum_get? h j s hcs
  have hlastsum : (cumsum h).getLastD 0 = H.sum := by
    rw [cumsum_getLastD_eq_sum, hsum]
  have hsle : (h.take (j + 1)).sum ≤ p * H.sum := by
    rw [hsval, hlastsum] at hcle
    rw [← hssum]
    exact (div_le_iff₀ hT).1 hcle
  obtain ⟨hjlt2, hvget⟩ := List.get?_eq_some.1 hhj
  have hget : ∀ i k : ℕ, ∀ hik : i ≤ k, ∀ hk : k < h.length,
      h.get ⟨k, hk⟩ ≤ h.get ⟨i, lt_of_le_of_lt hik hk⟩ := by
    intro i k hik hk
    rcases eq_or_lt_of_le hik with rfl | hlt
    · exact le_refl _
    · exact (List.pairwise_iff_get.1 hsort) ⟨i, lt_of_le_of_lt hik hk⟩ ⟨k, hk⟩ hlt
  have hsplit := List.take_append_drop (j + 1) h
  have hdrople : ∀ b ∈ h.drop (j + 1), b ≤ v := by
    intro b hb
    obtain ⟨i, hig⟩ := List.mem_iff_get?.1 hb
    rw [List.get?_drop] at hig
    obtain ⟨hlt2, hbg⟩ := List.get?_eq_some.1 hig
    rw [← hbg, ← hvget]
    have := hget j (j + 1 + i) (by omega) hlt2
    convert this using 2
  have htake_all : ∀ a ∈ h.take (j + 1), v ≤ a := by
    intro a ha
    obtain ⟨i, hig⟩ := List.mem_iff_get?.1 ha
    have hilt : i < j + 1 := by
      by_contra hcon
      rw [List.get?_eq_none.2 (by rw [List.length_take]; omega)] at hig
      cases hig
    rw [List.get?_take hilt] at hig
    obtain ⟨hlt2, hag⟩ := List.get?_eq_some.1 hig
    rw [← hag, ← hvget]
    have := hget i j (by omega) hjlt
    convert this using 2
  have hfe : ∀ pr : ℚ → Bool, h.filter pr
      = (h.take (j + 1)).filter pr ++ (h.drop (j + 1)).filter pr := by
    intro pr
    conv_lhs => rw [← hsplit]
    rw [List.filter_append]
  have hmassge : (h.take (j + 1)).sum ≤ (h.filter fun x => decide (v ≤ x)).sum := by
    rw [hfe, List.sum_append]
    have h1 : (h.take (j + 1)).filter (fun x => decide (v ≤ x)) = h.take (j + 1) := by
      rw [List.filter_eq_self]
      intro a ha
      simpa using htake_all a ha
    rw [h1]
    have h2 : 0 ≤ ((h.drop (j + 1)).filter fun x => decide (v ≤ x)).sum := by
      refine sum_nonneg_of_mem _ ?_
      intro x hx
      exact hnn2 x ((List.drop_sublist (j + 1) h).mem (List.mem_of_mem_filter hx))
    linarith
  constructor
  · rw [← (hperm.filter _).sum_eq, hfe, List.sum_append]
    have hdropnil : (h.drop (j + 1)).filter (fun x => decide (v < x)) = [] := by
      rw [List.filter_eq_nil_iff]
      intro b hb
      simpa using not_lt.2 (hdrople b hb)
    rw [hdropnil, List.sum_nil, add_zero]
    calc ((h.take (j + 1)).filter fun x => decide (v < x)).sum
        ≤ (h.take (j + 1)).sum :=
          sum_filter_le_sum _ _ fun x hx => hnn2 x (List.mem_of_mem_take hx)
      _ ≤ p * H.sum := hsle
  · rw [← (hperm.filter _).sum_eq]
    rcases Nat.lt_or_ge (j + 1) h.length with hj1 | hj1
    · have hc1get : (cdfOf h).get? (j + 1)
          = some ((cdfOf h).get ⟨j + 1, by rw [hcdf_len]; exact hj1⟩) :=
        List.get?_eq_get _
      set c1 := (cdfOf h).get ⟨j + 1, by rw [hcdf_len]; exact hj1⟩ with hc1
      have hwget : h.get? (j + 1) = some (h.get ⟨j + 1, hj1⟩) := List.get?_eq_get hj1
      have hzip1 : (h.zip (cdfOf h)).get? (j + 1) = some (h.get ⟨j + 1, hj1⟩, c1) :=
        zip_get?_some.2 ⟨hwget, hc1get⟩
      have hpc1 : p < c1 := by
        have := hmax (j + 1) (h.get ⟨j + 1, hj1⟩, c1) (by omega) hzip1
        simpa using this
      obtain ⟨s1, hcs1, hs1val⟩ := hcdf_val (j + 1) c1 hc1get
      have hs1sum : s1 = (h.take (j + 2)).sum := cumsum_get? h (j + 1) s1 hcs1
      have hptlt : p * H.sum < s1 := by
        rw [hs1val, hlastsum] at hpc1
        exact (lt_div_iff₀ hT).1 hpc1
      have htake2 : (h.take (j + 1 + 1)).sum = (h.take (j + 1)).sum + h.get ⟨j + 1, hj1⟩ :=
        List.sum_take_succ h (j + 1) hj1
      have hw_le_head : h.get ⟨j + 1, hj1⟩ ≤ h.headD 0 :=
        sorted_head_max h hsort _ (h.get_mem _ _)
      calc p * H.sum < s1 := hptlt
        _ = (h.take (j + 1)).sum + h.get ⟨j + 1, hj1⟩ := by
            rw [hs1sum]
            exact htake2
        _ ≤ (h.filter fun x => decide (v ≤ x)).sum + h.headD 0 :=
            add_le_add hmassge hw_le_head
    · have hjeq : j + 1 = h.length := by omega
      have htakeall2 : h.take (j + 1) = h := by
        rw [hjeq]
        exact List.take_length h
      have hsge : (h.take (j + 1)).sum = H.sum := by
        rw [htakeall2, hsum]
      have hmass_ge_T : H.sum ≤ (h.filter fun x => decide (v ≤ x)).sum := by
        rw [← hsge]
        exact hmassge
      have hhead_pos : 0 < h.headD 0 := by
        by_contra hcon
        push_neg at hcon
        have hall0 : ∀ x ∈ h, x = 0 := fun x hx =>
          le_antisymm (le_trans (sorted_head_max h hsort x hx) hcon) (hnn2 x hx)
        have hz : h.sum = 0 := List.sum_eq_zero hall0
        rw [hsum] at hz
        linarith
      have hp_le : p * H.sum ≤ H.sum := by
        calc p * H.sum ≤ 1 * H.sum := mul_le_mul_of_nonneg_right hp (le_of_lt hT)
          _ = H.sum := one_mul _
      calc p * H.sum ≤ H.sum := hp_le
        _ ≤ (h.filter fun x => decide (v ≤ x)).sum := hmass_ge_T
        _ < (h.filter fun x => decide (v ≤ x)).sum + h.headD 0 :=
            lt_add_of_pos_right _ hhead_pos



/-- Claim C2 (amended): the thresholds chosen on the success path do NOT
guarantee at-or-above coverage of at least the requested interval; what holds
is coverage within one largest bin: for a threshold `v` selected for target
`p`, the bins with occupancy strictly above `v` carry mass at most
`p * total`, and the bins with occupancy at or above `v` together with one
maximum-occupancy bin carry mass strictly more than `p * total` (so the
at-or-above region can undershoot the requested mass by at most one bin). -/
theorem c2_mass_bounds (xs ys : List ℚ) (n : ℕ) (p v : ℚ)
    (hT : 0 < (gridVals xs ys n).sum) (hp : p ≤ 1)
    (hsel : select (descSort (gridVals xs ys n)) (cdfOf (descSort (gridVals xs ys n))) p
      = some v) :
    ((gridVals xs ys n).filter fun x => decide (v < x)).sum ≤ p * (gridVals xs ys n).sum ∧
    p * (gridVals xs ys n).sum < ((gridVals xs ys n).filter fun x => decide (v ≤ x)).sum
      + (descSort (gridVals xs ys n)).headD 0 :=
  select_mass_bounds (gridVals xs ys n) p v (gridVals_nonneg xs ys n) hT hp hsel

/-- Witness for C2 on a 2×2 histogram with occupancies 4, 2, 1, 1 and target
`p = 13/16`: the selection picks `v = 2`. -/
theorem c2_mass_bounds_witness :
    ((gridVals exC2x exC2y 2).filter fun x => decide ((2:ℚ) < x)).sum
        ≤ 13/16 * (gridVals exC2x exC2y 2).sum ∧
    13/16 * (gridVals exC2x exC2y 2).sum
        < ((gridVals exC2x exC2y 2).filter fun x => decide ((2:ℚ) ≤ x)).sum
          + (descSort (gridVals exC2x exC2y 2)).headD 0 :=
  c2_mass_bounds exC2x exC2y 2 (13/16) 2
    (of_decide_eq_true (by with_unfolding_all rfl))
    (by norm_num)
    (of_decide_eq_true (by with_unfolding_all rfl))

/-- Counterexample to C2 as stated: on the 2×2 histogram with occupancies
4, 2, 1, 1 (total 8) and intervals `[0, 13/16]`, the success path produces
levels `[2, 4]`, yet the bins with occupancy at or above 4 carry mass
`4 < 13/16 · 8 = 6.5`, and even the bins at or above the LOWEST level 2 carry
mass `6 < 6.5` — under every pairing of thresholds with intervals the claimed
coverage `≥ interval[i]` fails. -/
theorem c2_coverage_counterexample :
    confidence_2d exC2x exC2y 2 [0, 13/16] false true = CRes.contour [2, 4] ∧
    ((gridVals exC2x exC2y 2).filter fun x => decide ((4:ℚ) ≤ x)).sum
        < 13/16 * (gridVals exC2x exC2y 2).sum ∧
    ((gridVals exC2x exC2y 2).filter fun x => decide ((2:ℚ) ≤ x)).sum
        < 13/16 * (gridVals exC2x exC2y 2).sum :=
  of_decide_eq_true (by with_unfolding_all rfl)


end CornerPlot
